import Mathlib

/-!
# The local value store and the VarDir API of `engine/local/local.go`

A shallow embedding of the package `local`: the key-value store `Value`
(`ValueGet`, `ValueSet`, `ValueWatch` and the helpers `getPrefix`, `valueRead`,
`valueWrite`, `valueRemove`) and the directory API `VarDirImpl` (`Init`,
`getPrefix`, `VarDir`).

Modelling decisions.

* Go maps are association lists: a lookup finds the first binding, an
  assignment replaces every binding of the key, `delete` drops them all.  The
  order of the list `notify` is the order in which `range` happens to visit the
  map, so a statement about every list is a statement about every visiting order.
* A Go `interface{}` value is an `Option V`: `none` is `nil`.
* The mutex only serialises the calls; every operation is a function from the
  state before the call to the state after it.
* A channel with a buffer is the number of tokens waiting in the buffer.  A call
  that has to wait at a send on a full channel ends in `Outcome.blocked`.
* The goroutine of `ValueWatch` is a step function on the cases that its two
  `select` statements can take.
* The filesystem is a finite map from path names to entries (package `os`); a
  directory is empty when no path name of the map lies below it.  The codec
  (`util.ValueToB64`, `util.B64ToValue`) is a parameter.
-/

namespace Local

/-! ## Strings (packages `strings` and `path`) -/

/-- Go `strings.HasPrefix`. -/
def HasPrefix (s p : String) : Bool := p.data.isPrefixOf s.data

/-- Go `strings.HasSuffix`. -/
def HasSuffix (s p : String) : Bool := p.data.isSuffixOf s.data

/-- Go `unicode.IsSpace`: the white space characters that `strings.TrimSpace` cuts. -/
def isSpace (c : Char) : Bool :=
  let n := c.toNat
  (9 ≤ n && n ≤ 13) || n == 32 || n == 0x85 || n == 0xA0 || n == 0x1680 ||
  (0x2000 ≤ n && n ≤ 0x200a) || n == 0x2028 || n == 0x2029 || n == 0x202f ||
  n == 0x205f || n == 0x3000

/-- The characters of a string without the white space at both ends. -/
def trimSpaceChars (l : List Char) : List Char :=
  ((l.dropWhile isSpace).reverse.dropWhile isSpace).reverse

/-- Go `strings.TrimSpace`. -/
def TrimSpace (s : String) : String := String.mk (trimSpaceChars s.data)

/-- The path name elements between the slashes of a path name. -/
def splitSlash : List Char → List (List Char)
  | [] => [[]]
  | c :: cs =>
    if c = '/' then [] :: splitSlash cs
    else
      match splitSlash cs with
      | [] => [[c]]
      | x :: xs => (c :: x) :: xs

/-- The path name element `..`. -/
def dotdot : List Char := ['.', '.']

/-- One round of the loop of Go `path.Clean`, on the elements written so far
(the last one first): an empty element and `.` are dropped, `..` takes back the
element before it, is dropped at the root, and is kept where a path that is not
rooted has nothing left to take back; any other element is written. -/
def cleanStep (rooted : Bool) (out : List (List Char)) (elem : List Char) :
    List (List Char) :=
  if elem = [] then out
  else if elem = ['.'] then out
  else if elem = dotdot then
    match out with
    | [] => if rooted then [] else [dotdot]
    | top :: rest => if top = dotdot then dotdot :: out else rest
  else elem :: out

/-- The elements that Go `path.Clean` keeps, the last one first. -/
def cleanElems (rooted : Bool) (path : List Char) : List (List Char) :=
  (splitSlash path).foldl (cleanStep rooted) []

/-- The elements of a path name with a slash between them. -/
def joinSlash : List (List Char) → List Char
  | [] => []
  | [e] => e
  | e :: e2 :: es => e ++ '/' :: joinSlash (e2 :: es)

/-- The path name made of the elements `out` (the last one first). -/
def renderPath (rooted : Bool) (out : List (List Char)) : List Char :=
  (if rooted then ['/'] else []) ++ joinSlash out.reverse

/-- Whether a path name begins with a slash. -/
def isRooted (path : List Char) : Bool :=
  match path with
  | c :: _ => c = '/'
  | [] => false

/-- Go `path.Clean` on the characters of the path name: the shortest path name
that is lexically the same; the empty path name and the empty result are
written `.`. -/
def cleanChars (path : List Char) : List Char :=
  if path = [] then ['.']
  else
    let s := renderPath (isRooted path) (cleanElems (isRooted path) path)
    if s = [] then ['.'] else s

/-- Go `path.Clean`. -/
def Clean (path : String) : String := String.mk (cleanChars path.data)

/-- The buffer that Go `path.Join` fills: the elements with a slash between
them, the empty elements at the front left out. -/
def joinBuf : List Char → List String → List Char
  | buf, [] => buf
  | buf, e :: es =>
    if buf ≠ [] ∨ e ≠ "" then
      joinBuf ((if buf ≠ [] then buf ++ ['/'] else buf) ++ e.data) es
    else joinBuf buf es

/-- Go `path.Join`. -/
def Join (elem : List String) : String :=
  if (elem.map String.length).sum = 0 then "" else Clean (String.mk (joinBuf [] elem))

deriving instance DecidableEq for Except

/-! ## Errors -/

/-- The errors the package returns or passes on. -/
inductive Error where
  /-- An error made with `fmt.Errorf` in this package. -/
  | validation (msg : String)
  /-- An error of package `os` for which `os.IsNotExist` holds. -/
  | notExist (path : String)
  /-- Any other error of package `os`. -/
  | os (msg : String)
  /-- An error of the codec. -/
  | codec (msg : String)
  deriving DecidableEq, Repr

/-- Go `os.IsNotExist`. -/
def IsNotExist : Error → Bool
  | .notExist _ => true
  | _ => false

/-- What a call does: it returns, or it stands at a send on a channel whose
buffer is full and waits for another goroutine to receive. -/
inductive Outcome (α : Type) where
  | returned (a : α)
  | blocked
  deriving DecidableEq, Repr

/-! ## The filesystem (package `os`) -/

/-- What a path name refers to. -/
inductive Entry where
  /-- A regular file and its content. -/
  | file (content : String)
  /-- A directory. -/
  | dir
  /-- A path on which every operation fails with the given I/O error. -/
  | fault (msg : String)
  deriving DecidableEq, Repr

/-- The filesystem: the entries of the path names that exist. -/
abbrev Disk := List (String × Entry)

/-- The entry of a path name, if it exists. -/
def Disk.stat (d : Disk) (p : String) : Option Entry :=
  match d with
  | [] => none
  | (q, e) :: rest => if q = p then some e else Disk.stat rest p

/-- The filesystem without the path name `p`. -/
def Disk.del (d : Disk) (p : String) : Disk := d.filter (fun x => x.1 ≠ p)

/-- The filesystem in which `p` refers to `e`. -/
def Disk.put (d : Disk) (p : String) (e : Entry) : Disk := (p, e) :: d.del p

/-- Go `os.MkdirAll`: nothing to do for a directory, an error on a file. -/
def MkdirAll (d : Disk) (p : String) : Except Error Disk :=
  match d.stat p with
  | none => .ok (d.put p .dir)
  | some .dir => .ok d
  | some (.file _) => .error (.os "not a directory")
  | some (.fault m) => .error (.os m)

/-- Go `os.ReadFile`. -/
def ReadFile (d : Disk) (p : String) : Except Error String :=
  match d.stat p with
  | none => .error (.notExist p)
  | some (.file c) => .ok c
  | some .dir => .error (.os "is a directory")
  | some (.fault m) => .error (.os m)

/-- Go `os.WriteFile`: creates the file or replaces its content. -/
def WriteFile (d : Disk) (p : String) (s : String) : Except Error Disk :=
  match d.stat p with
  | none => .ok (d.put p (.file s))
  | some (.file _) => .ok (d.put p (.file s))
  | some .dir => .error (.os "is a directory")
  | some (.fault m) => .error (.os m)

/-- Whether the entry is a regular file. -/
def Entry.isFile : Entry → Bool
  | .file _ => true
  | _ => false

/-- Whether two path names are the same name after `path.Clean`: they refer to
the same file or directory. -/
def samePath (q p : String) : Bool := decide (Clean q = Clean p)

/-- Whether the path name `q` lies below the directory `p`. -/
def below (q p : String) : Bool :=
  decide (Clean q ≠ Clean p) &&
    (if Clean p = "/" then "/" else Clean p ++ "/").data.isPrefixOf (Clean q).data

/-- Whether the path name is written as the name of a directory: it ends with a
slash, or its last element is `.` or `..`. -/
def dirSpelled (p : String) : Bool :=
  match (splitSlash p.data).getLast? with
  | some e => decide (e = [] ∨ e = ['.'] ∨ e = dotdot)
  | none => false

/-- Whether the last element of the path name is `.`. -/
def endsWithDot (p : String) : Bool :=
  match (splitSlash p.data).getLast? with
  | some e => decide (e = ['.'])
  | none => false

/-- Whether a regular file stands where the path name needs a directory: the
path leads through the file, or it names the file as a directory. -/
def Disk.throughFile (d : Disk) (p : String) : Bool :=
  d.any (fun x => x.2.isFile &&
    (below p x.1 || (samePath x.1 p && dirSpelled p) || (x.1 ++ "/").data.isPrefixOf p.data))

/-- Whether something in the filesystem lies below the path name: the path is a
directory that is not empty. -/
def Disk.hasBelow (d : Disk) (p : String) : Bool := d.any (fun x => below x.1 p)

/-- Go `os.Remove`, which removes a file or an empty directory.  It fails with
`ENOTDIR` when the path leads through a regular file, with `ENOTEMPTY` on a
directory with something below it, with `EINVAL` on a directory named with a
last element `.`, with the I/O error of a faulty path, and with an error for
which `os.IsNotExist` holds when nothing is there.  The path names of the
filesystem are compared after `path.Clean`. -/
def Remove (d : Disk) (p : String) : Except Error Disk :=
  if d.throughFile p then .error (.os "not a directory")
  else if d.hasBelow p then .error (.os "directory not empty")
  else
    match d.find? (fun x => samePath x.1 p) with
    | none => .error (.notExist p)
    | some (_, .fault m) => .error (.os m)
    | some (_, .dir) =>
      if endsWithDot p then .error (.os "invalid argument")
      else .ok (d.filter (fun x => !samePath x.1 p))
    | some (_, .file _) => .ok (d.filter (fun x => !samePath x.1 p))

/-- Whether `os.Remove` of the path name fails with an error other than one for
which `os.IsNotExist` holds. -/
def Disk.removeFails (d : Disk) (p : String) : Bool :=
  match Remove d p with
  | .ok _ => false
  | .error e => !IsNotExist e

/-! ## The codec (package `util`) -/

/-- The two functions of package `util` that turn a value into text and back. -/
structure Codec (V : Type) where
  /-- Go `util.ValueToB64`. -/
  ValueToB64 : V → Except Error String
  /-- Go `util.B64ToValue`: the value may be `nil`. -/
  B64ToValue : String → Except Error (Option V)

/-- The codec decodes what it encoded: the text of a value, stored with a line
end behind it as `valueWrite` does and cut as `valueRead` does, decodes to the
value. -/
def Codec.Faithful {V : Type} (c : Codec V) : Prop :=
  ∀ v s, c.ValueToB64 v = .ok s → c.B64ToValue (TrimSpace (s ++ "\n")) = .ok (some v)

/-! ## Go maps as association lists -/

/-- The map lookup `m[key]` with its `exists` flag. -/
def mapGet {V : Type} (m : List (String × V)) (key : String) : Option V :=
  match m with
  | [] => none
  | (k, v) :: rest => if k = key then some v else mapGet rest key

/-- Go `delete(m, key)`. -/
def mapDelete {V : Type} (m : List (String × V)) (key : String) : List (String × V) :=
  m.filter (fun x => x.1 ≠ key)

/-- The assignment `m[key] = v`. -/
def mapSet {V : Type} (m : List (String × V)) (key : String) (v : V) : List (String × V) :=
  (key, v) :: mapDelete m key

/-! ## The value store -/

/-- The capacity of the channel that `ValueWatch` makes: `make(chan struct{}, 1)`. -/
def notifyCap : Nat := 1

/-- One binding of the map `notify`: the channel (its identity), the key that is
watched, and the number of tokens in the buffer of the channel. -/
structure Watcher where
  ch : Nat
  key : String
  buf : Nat
  deriving DecidableEq, Repr

/-- The struct `Value`; `initPrefix` is `init.Prefix` and `prefixPath` the field
of the name `prefix`. -/
structure Value (V : Type) where
  initPrefix : String
  prefixPath : String
  prefixExists : Bool
  values : List (String × V)
  notify : List Watcher
  skipread : List String

/-- The method `Init` of `Value`. -/
def Value.Init (V : Type) (Prefix : String) : Value V :=
  { initPrefix := Prefix
    prefixPath := Join [Prefix, "value"] ++ "/"
    prefixExists := false
    values := []
    notify := []
    skipread := [] }

/-- The method `getPrefix` of `Value`. -/
def Value.getPrefix {V : Type} (obj : Value V) (d : Disk) :
    Except Error String × Value V × Disk :=
  if obj.prefixExists then (.ok obj.prefixPath, obj, d)
  else
    match MkdirAll d obj.prefixPath with
    | .error e => (.error e, obj, d)
    | .ok d1 => (.ok obj.prefixPath, { obj with prefixExists := true }, d1)

/-- The function `valueRead`. -/
def valueRead {V : Type} (c : Codec V) (d : Disk) (pfx key : String) :
    Except Error (Option V) :=
  if !HasSuffix pfx "/" then .error (.validation "prefix is not a dir")
  else if !HasPrefix pfx "/" then .error (.validation "prefix is not absolute")
  else
    match ReadFile d (pfx ++ key) with
    | .error e => if IsNotExist e then .ok none else .error e
    | .ok b => c.B64ToValue (TrimSpace b)

/-- The function `valueWrite`. -/
def valueWrite {V : Type} (c : Codec V) (d : Disk) (pfx key : String) (value : V) :
    Except Error Disk :=
  if !HasSuffix pfx "/" then .error (.validation "prefix is not a dir")
  else if !HasPrefix pfx "/" then .error (.validation "prefix is not absolute")
  else
    match c.ValueToB64 value with
    | .error e => .error e
    | .ok s => WriteFile d (pfx ++ key) (s ++ "\n")

/-- The function `valueRemove`. -/
def valueRemove (d : Disk) (pfx key : String) : Except Error Disk :=
  if !HasSuffix pfx "/" then .error (.validation "prefix is not a dir")
  else if !HasPrefix pfx "/" then .error (.validation "prefix is not absolute")
  else
    match Remove d (pfx ++ key) with
    | .error e => if IsNotExist e then .ok d else .error e
    | .ok d1 => .ok d1

/-- The method `ValueGet`: the result, the store and the filesystem after the call. -/
def Value.ValueGet {V : Type} (c : Codec V) (obj : Value V) (d : Disk) (key : String) :
    Except Error (Option V) × Value V × Disk :=
  match obj.getPrefix d with
  | (.error e, obj1, d1) => (.error e, obj1, d1)
  | (.ok pfx, obj1, d1) =>
    let r : Except Error (Option V) :=
      if key ∈ obj1.skipread then valueRead c d1 pfx key else .ok none
    match r with
    | .error e => (.error e, obj1, d1)
    | .ok val =>
      match mapGet obj1.values key with
      | none => (.ok val, { obj1 with skipread := obj1.skipread.insert key }, d1)
      | some value => (.ok (some value), obj1, d1)

/-- The first part of `ValueSet` after the lock: the file is removed or written. -/
def persist {V : Type} (c : Codec V) (d : Disk) (pfx key : String) (value : Option V) :
    Except Error Disk :=
  match value with
  | none => valueRemove d pfx key
  | some v => valueWrite c d pfx key v

/-- The second part of `ValueSet`: the key is deleted from the map `values` or
the value is stored in it. -/
def remember {V : Type} (values : List (String × V)) (key : String) (value : Option V) :
    List (String × V) :=
  match value with
  | none => mapDelete values key
  | some v => mapSet values key v

/-- The loop at the end of `ValueSet` over the bindings of `notify`: one token is
sent on every channel that watches `key`.  The `select` has the one case of the
send and no `default`, so with a full buffer it waits: the flag says that the
loop stopped there. -/
def fanOut (key : String) : List Watcher → List Watcher × Bool
  | [] => ([], false)
  | w :: ws =>
    if w.key ≠ key then ((w :: (fanOut key ws).1), (fanOut key ws).2)
    else if w.buf < notifyCap then
      (({ w with buf := w.buf + 1 } :: (fanOut key ws).1), (fanOut key ws).2)
    else (w :: ws, true)

/-- The method `ValueSet`: the error it returns (`none` is `nil`) unless it
waits, the store and the filesystem. -/
def Value.ValueSet {V : Type} (c : Codec V) (obj : Value V) (d : Disk) (key : String)
    (value : Option V) : Outcome (Option Error) × Value V × Disk :=
  match obj.getPrefix d with
  | (.error e, obj1, d1) => (.returned (some e), obj1, d1)
  | (.ok pfx, obj1, d1) =>
    match persist c d1 pfx key value with
    | .error e => (.returned (some e), obj1, d1)
    | .ok d2 =>
      let r := fanOut key obj1.notify
      ((if r.2 then .blocked else .returned none),
        { obj1 with values := remember obj1.values key value, notify := r.1 }, d2)

/-- A channel that is not a key of `notify`: what `make` returns. -/
def freshChan (notify : List Watcher) : Nat :=
  (notify.map (fun w => w.ch)).foldl max 0 + 1

/-- Where the goroutine of `ValueWatch` is: in the first `select`, in the second
one, or past the loop with the deferred cleanup done. -/
inductive Pc where
  | recvSelect
  | sendSelect
  | exited
  deriving DecidableEq, Repr

/-- The goroutine of `ValueWatch`: its channel `notifyCh`, where it is, and the
number of tokens it has sent on the channel `ch` that `ValueWatch` returned. -/
structure Forwarder where
  notifyCh : Nat
  pc : Pc
  sent : Nat
  deriving DecidableEq, Repr

/-- The case that a `select` of the goroutine takes. -/
inductive Event where
  /-- A token is received from `notifyCh`. -/
  | signal
  /-- The receive from `notifyCh` reports that the channel is closed. -/
  | closed
  /-- The subscriber takes a token from `ch`. -/
  | taken
  /-- The case of `ctx.Done()`. -/
  | done
  deriving DecidableEq, Repr

/-- The method `ValueWatch` up to the `go` statement: the channel is made,
registered for the key, and the startup token is sent into its buffer. -/
def Value.ValueWatch {V : Type} (obj : Value V) (key : String) : Forwarder × Value V :=
  let notifyCh := freshChan obj.notify
  ({ notifyCh := notifyCh, pc := .recvSelect, sent := 0 },
    { obj with notify := obj.notify ++ [{ ch := notifyCh, key := key, buf := 0 + 1 }] })

/-- The number of tokens in the buffer of a channel. -/
def chanLen (notify : List Watcher) (ch : Nat) : Nat :=
  match notify with
  | [] => 0
  | w :: ws => if w.ch = ch then w.buf else chanLen ws ch

/-- One token is taken from the buffer of a channel. -/
def chanRecv (notify : List Watcher) (ch : Nat) : List Watcher :=
  notify.map (fun w => if w.ch = ch then { w with buf := w.buf - 1 } else w)

/-- The deferred function of the goroutine: `delete(obj.notify, notifyCh)`. -/
def cleanup (notify : List Watcher) (ch : Nat) : List Watcher :=
  notify.filter (fun w => w.ch ≠ ch)

/-- One step of the goroutine of `ValueWatch` on the map `notify`: the case that
the `select` it is in takes, `none` when the `select` has no such case or the
case is not ready.  A `break` in a `select` ends the `select`: after the first
one the second one follows, after the second one the next round of the loop.
Only the panic leaves the function, and the deferred cleanup runs. -/
def Forwarder.step (notify : List Watcher) (t : Forwarder) (e : Event) :
    Option (List Watcher × Forwarder) :=
  match t.pc, e with
  | .recvSelect, .signal =>
    if 0 < chanLen notify t.notifyCh then
      some (chanRecv notify t.notifyCh, { t with pc := .sendSelect })
    else none
  | .recvSelect, .closed => some (cleanup notify t.notifyCh, { t with pc := .exited })
  | .recvSelect, .done => some (notify, { t with pc := .sendSelect })
  | .sendSelect, .taken => some (notify, { t with pc := .recvSelect, sent := t.sent + 1 })
  | .sendSelect, .done => some (notify, { t with pc := .recvSelect })
  | _, _ => none

/-- The goroutine run on a list of events: `none` when one of them is not possible. -/
def Forwarder.run (notify : List Watcher) (t : Forwarder) :
    List Event → Option (List Watcher × Forwarder)
  | [] => some (notify, t)
  | e :: es =>
    match t.step notify e with
    | none => none
    | some (n1, t1) => Forwarder.run n1 t1 es

/-! ## The VarDir API -/

/-- The struct `VarDirImpl`; `initPrefix` is `init.Prefix` and `prefixPath` the
field of the name `prefix`. -/
structure VarDirImpl where
  initPrefix : String
  prefixPath : String
  prefixExists : Bool
  deriving DecidableEq, Repr

/-- The method `Init` of `VarDirImpl`. -/
def VarDirImpl.Init (Prefix : String) : VarDirImpl :=
  { initPrefix := Prefix
    prefixPath := Join [Prefix, "vardir"] ++ "/"
    prefixExists := false }

/-- The method `getPrefix` of `VarDirImpl`. -/
def VarDirImpl.getPrefix (obj : VarDirImpl) (d : Disk) :
    Except Error String × VarDirImpl × Disk :=
  if obj.prefixExists then (.ok obj.prefixPath, obj, d)
  else
    match MkdirAll d obj.prefixPath with
    | .error e => (.error e, obj, d)
    | .ok d1 => (.ok obj.prefixPath, { obj with prefixExists := true }, d1)

/-- The method `VarDir`: the directory or the error, the object and the
filesystem after the call. -/
def VarDirImpl.VarDir (obj : VarDirImpl) (d : Disk) (reldir : String) :
    Except Error String × VarDirImpl × Disk :=
  if HasPrefix reldir "/" then (.error (.validation "path must be relative"), obj, d)
  else if !HasSuffix reldir "/" then (.error (.validation "path must be a dir"), obj, d)
  else
    match obj.getPrefix d with
    | (.error e, obj1, d1) => (.error e, obj1, d1)
    | (.ok pfx, obj1, d1) =>
      let result := Join [pfx, reldir] ++ "/"
      match MkdirAll d1 result with
      | .error e => (.error e, obj1, d1)
      | .ok d2 => (.ok result, obj1, d2)

/-! ## A codec and a filesystem to run the store on -/

/-- A codec of strings: a text without white space stands for itself, the empty
text and a text with white space in it are not accepted. -/
def plainCodec : Codec String where
  ValueToB64 := fun v =>
    if v.data ≠ [] ∧ v.data.all (fun ch => !isSpace ch) then .ok v
    else .error (.codec "value has no encoding")
  B64ToValue := fun s =>
    if s.data ≠ [] ∧ s.data.all (fun ch => !isSpace ch) then .ok (some s)
    else .error (.codec "illegal base64 data")

/-- Whether a channel that watches the key has a full buffer. -/
def anyFull (notify : List Watcher) (key : String) : Bool :=
  notify.any (fun w => w.key = key && notifyCap ≤ w.buf)

/-- The filesystem that a first store over `/var/lib/mgmt` leaves behind after
it has set the key `k` to the value `hello`. -/
def coldDisk : Disk :=
  ((Value.Init String "/var/lib/mgmt").ValueSet plainCodec [] "k" (some "hello")).2.2

/-- A second store over `/var/lib/mgmt` after its first `ValueGet` of `k`. -/
def warmStore : Value String :=
  ((Value.Init String "/var/lib/mgmt").ValueGet plainCodec coldDisk "k").2.1

/-- The store `warmStore` after `k` was set to `new`: the key is marked in
`skipread` and is in the map `values`. -/
def warmCached : Value String := (warmStore.ValueSet plainCodec coldDisk "k" (some "new")).2.1

/-- The filesystem of `warmCached`: the file of `k` holds the value `new`. -/
def warmDisk : Disk := (warmStore.ValueSet plainCodec coldDisk "k" (some "new")).2.2

/-- A store with one subscription to the key `k`, right after `ValueWatch`. -/
def watchedStore : Value String := ((Value.Init String "/var/lib/mgmt").ValueWatch "k").2

/-- The goroutine of the subscription of `watchedStore`. -/
def watchedTask : Forwarder := ((Value.Init String "/var/lib/mgmt").ValueWatch "k").1

/-- The store `watchedStore` after the goroutine has received the startup token
and stands in the second `select`, the subscriber not reading. -/
def drainedStore : Value String :=
  { watchedStore with notify := chanRecv watchedStore.notify watchedTask.notifyCh }

/-- Whether the cleaned form of a relative path name begins with the element
`..`, that is, the path name leads out of the directory it is relative to. -/
def climbs (reldir : String) : Bool := decide (dotdot ∈ cleanElems false reldir.data)

/-- The elements written so far are what `path.Clean` writes: no element has a
slash in it, and each one was kept when it came. -/
def GoodStack (rooted : Bool) : List (List Char) → Prop
  | [] => True
  | e :: out => '/' ∉ e ∧ cleanStep rooted out e = e :: out ∧ GoodStack rooted out

/-! ## Lemmas on the maps, the filesystem and the strings -/

theorem Disk.stat_del_self (d : Disk) (p : String) : (d.del p).stat p = none := by
  induction d with
  | nil => rfl
  | cons x rest ih =>
    obtain ⟨q, e⟩ := x
    by_cases h : q = p
    · simpa [Disk.del, List.filter, h] using ih
    · simpa [Disk.del, List.filter, h, Disk.stat] using ih

theorem Disk.stat_put_self (d : Disk) (p : String) (e : Entry) :
    (d.put p e).stat p = some e := by
  simp [Disk.put, Disk.stat]

theorem mapGet_mapDelete_self {V : Type} (m : List (String × V)) (key : String) :
    mapGet (mapDelete m key) key = none := by
  induction m with
  | nil => rfl
  | cons x rest ih =>
    obtain ⟨q, e⟩ := x
    by_cases h : q = key
    · simpa [mapDelete, List.filter, h] using ih
    · simpa [mapDelete, List.filter, h, mapGet] using ih

theorem mapGet_mapSet_self {V : Type} (m : List (String × V)) (key : String) (v : V) :
    mapGet (mapSet m key v) key = some v := by
  simp [mapSet, mapGet]

theorem dropWhile_eq_self_of_head {α : Type} (p : α → Bool) (l : List α)
    (h : ∀ a, l.head? = some a → p a = false) : l.dropWhile p = l := by
  cases l with
  | nil => rfl
  | cons a t => simp [List.dropWhile, h a rfl]

/-- A text without white space is what is left of it and a line end after the cut. -/
theorem trimSpaceChars_line (l : List Char) (h : ∀ ch ∈ l, isSpace ch = false) :
    trimSpaceChars (l ++ "\n".data) = l := by
  have hnl : isSpace (Char.ofNat 10) = true := by decide
  have hdata : "\n".data = [Char.ofNat 10] := rfl
  rw [hdata]
  cases l with
  | nil => simp [trimSpaceChars, List.dropWhile, hnl]
  | cons a t =>
    have ha : isSpace a = false := h a (by simp)
    have h1 : (a :: t ++ [Char.ofNat 10]).dropWhile isSpace = a :: t ++ [Char.ofNat 10] := by
      simp [List.dropWhile, ha]
    have h2 : (Char.ofNat 10 :: (a :: t).reverse).dropWhile isSpace = (a :: t).reverse := by
      rw [List.dropWhile_cons_of_pos hnl]
      apply dropWhile_eq_self_of_head
      intro b hb
      apply h
      have hmem : b ∈ (a :: t).reverse := List.mem_of_mem_head? hb
      exact List.mem_reverse.mp hmem
    unfold trimSpaceChars
    rw [h1, List.reverse_append, List.reverse_singleton, List.singleton_append, h2,
      List.reverse_reverse]

theorem TrimSpace_line (s : String) (h : ∀ ch ∈ s.data, isSpace ch = false) :
    TrimSpace (s ++ "\n") = s := by
  unfold TrimSpace
  rw [String.data_append, trimSpaceChars_line s.data h]

/-- A codec whose text has no white space in it, as base64 has none, and that
decodes the text of a value to the value, decodes what it encoded. -/
theorem Codec.faithful_of_base64 {V : Type} (c : Codec V)
    (h : ∀ v s, c.ValueToB64 v = .ok s →
      c.B64ToValue s = .ok (some v) ∧ ∀ ch ∈ s.data, isSpace ch = false) : c.Faithful := by
  intro v s henc
  obtain ⟨hdec, hsp⟩ := h v s henc
  rw [TrimSpace_line s hsp, hdec]

/-- The store after `getPrefix` differs from the store before in `prefixExists` only. -/
theorem Value.getPrefix_fields {V : Type} (obj : Value V) (d : Disk) :
    (obj.getPrefix d).2.1.values = obj.values ∧
    (obj.getPrefix d).2.1.skipread = obj.skipread ∧
    (obj.getPrefix d).2.1.notify = obj.notify ∧
    (obj.getPrefix d).2.1.prefixPath = obj.prefixPath := by
  unfold Value.getPrefix
  split
  · simp
  · split <;> simp

/-- When `getPrefix` returns no error it returns the field `prefix`, and the
next call finds the prefix made. -/
theorem Value.getPrefix_ok {V : Type} (obj : Value V) (d : Disk) (pfx : String)
    (h : (obj.getPrefix d).1 = .ok pfx) :
    pfx = obj.prefixPath ∧ (obj.getPrefix d).2.1.prefixExists = true := by
  unfold Value.getPrefix at h ⊢
  by_cases hex : obj.prefixExists = true
  · simp only [hex, if_true] at h ⊢
    simp only [Except.ok.injEq] at h
    exact ⟨h.symm, trivial⟩
  · simp only [hex] at h ⊢
    cases hmk : MkdirAll d obj.prefixPath with
    | error e => simp [hmk] at h
    | ok d1 =>
      simp only [hmk] at h ⊢
      simp at h
      exact ⟨h.symm, rfl⟩

/-- What a successful `valueWrite` did. -/
theorem valueWrite_ok {V : Type} (c : Codec V) (d d2 : Disk) (pfx key : String) (v : V)
    (h : valueWrite c d pfx key v = .ok d2) :
    HasSuffix pfx "/" = true ∧ HasPrefix pfx "/" = true ∧
    ∃ s, c.ValueToB64 v = .ok s ∧ d2 = d.put (pfx ++ key) (.file (s ++ "\n")) := by
  unfold valueWrite at h
  by_cases h1 : HasSuffix pfx "/" = true
  · by_cases h2 : HasPrefix pfx "/" = true
    · simp only [h1, h2, Bool.not_true, Bool.false_eq_true, if_false] at h
      refine ⟨h1, h2, ?_⟩
      cases henc : c.ValueToB64 v with
      | error e => simp [henc] at h
      | ok s =>
        refine ⟨s, rfl, ?_⟩
        simp only [henc] at h
        unfold WriteFile at h
        split at h <;> simp at h <;> exact h.symm
    · simp [h1, h2] at h
  · simp [h1] at h

theorem Disk.stat_filter_samePath (d : Disk) (p : String) :
    Disk.stat (d.filter (fun x => !samePath x.1 p)) p = none := by
  induction d with
  | nil => rfl
  | cons x rest ih =>
    obtain ⟨q, e⟩ := x
    by_cases h : samePath q p = true
    · simpa [List.filter, h] using ih
    · have hq : q ≠ p := by
        intro hqp
        apply h
        simp [samePath, hqp]
      simp only [Bool.not_eq_true] at h
      simp only [List.filter, h, Bool.not_false]
      simpa [Disk.stat, hq] using ih

theorem Disk.stat_none_of_find (d : Disk) (p : String)
    (h : d.find? (fun x => samePath x.1 p) = none) : d.stat p = none := by
  induction d with
  | nil => rfl
  | cons x rest ih =>
    obtain ⟨q, e⟩ := x
    by_cases hs : samePath q p = true
    · simp [List.find?, hs] at h
    · have hq : q ≠ p := by
        intro hqp
        apply hs
        simp [samePath, hqp]
      simp only [Bool.not_eq_true] at hs
      simp only [List.find?, hs] at h
      simpa [Disk.stat, hq] using ih h

/-- After `os.Remove` returned no error nothing is there. -/
theorem Remove_ok (d d2 : Disk) (p : String) (h : Remove d p = .ok d2) : d2.stat p = none := by
  unfold Remove at h
  split at h
  · simp at h
  · split at h
    · simp at h
    · split at h
      · simp at h
      · simp at h
      · split at h
        · simp at h
        · simp only [Except.ok.injEq] at h
          rw [← h]
          exact Disk.stat_filter_samePath d p
      · simp only [Except.ok.injEq] at h
        rw [← h]
        exact Disk.stat_filter_samePath d p

/-- When `os.Remove` reports that nothing is there, nothing is there. -/
theorem Remove_notExist (d : Disk) (p : String) (e : Error) (h : Remove d p = .error e)
    (he : IsNotExist e = true) : d.stat p = none := by
  unfold Remove at h
  split at h
  · simp only [Except.error.injEq] at h
    subst h
    simp [IsNotExist] at he
  · split at h
    · simp only [Except.error.injEq] at h
      subst h
      simp [IsNotExist] at he
    · split at h
      · rename_i hfind
        exact Disk.stat_none_of_find d p hfind
      · simp only [Except.error.injEq] at h
        subst h
        simp [IsNotExist] at he
      · split at h
        · simp only [Except.error.injEq] at h
          subst h
          simp [IsNotExist] at he
        · simp at h
      · simp at h

/-- What a successful `valueRemove` did. -/
theorem valueRemove_ok (d d2 : Disk) (pfx key : String)
    (h : valueRemove d pfx key = .ok d2) :
    HasSuffix pfx "/" = true ∧ HasPrefix pfx "/" = true ∧ d2.stat (pfx ++ key) = none := by
  unfold valueRemove at h
  by_cases h1 : HasSuffix pfx "/" = true
  · by_cases h2 : HasPrefix pfx "/" = true
    · simp only [h1, h2, Bool.not_true, Bool.false_eq_true, if_false] at h
      refine ⟨h1, h2, ?_⟩
      cases hrm : Remove d (pfx ++ key) with
      | error e =>
        simp only [hrm] at h
        by_cases he : IsNotExist e = true
        · simp only [he, if_true, Except.ok.injEq] at h
          rw [← h]
          exact Remove_notExist d _ e hrm he
        · simp [he] at h
      | ok d1 =>
        simp only [hrm, Except.ok.injEq] at h
        rw [← h]
        exact Remove_ok d d1 _ hrm
    · simp [h1, h2] at h
  · simp [h1] at h

/-- Reading back what `valueWrite` wrote gives the value. -/
theorem valueRead_written {V : Type} (c : Codec V) (hc : c.Faithful) (d : Disk)
    (pfx key s : String) (v : V) (h1 : HasSuffix pfx "/" = true)
    (h2 : HasPrefix pfx "/" = true) (henc : c.ValueToB64 v = .ok s) :
    valueRead c (d.put (pfx ++ key) (.file (s ++ "\n"))) pfx key = .ok (some v) := by
  have hdec := hc v s henc
  unfold valueRead ReadFile
  simp only [h1, h2, Bool.not_true, Bool.false_eq_true, if_false, Disk.stat_put_self, hdec]

/-- Reading a file that does not exist gives `nil` and no error. -/
theorem valueRead_missing {V : Type} (c : Codec V) (d : Disk) (pfx key : String)
    (h1 : HasSuffix pfx "/" = true) (h2 : HasPrefix pfx "/" = true)
    (hst : d.stat (pfx ++ key) = none) : valueRead c d pfx key = .ok none := by
  unfold valueRead ReadFile
  simp [h1, h2, hst, IsNotExist]

/-- The method `ValueGet` on a store whose prefix is made. -/
theorem Value.ValueGet_provisioned {V : Type} (c : Codec V) (obj : Value V) (d : Disk)
    (key : String) (hex : obj.prefixExists = true) :
    obj.ValueGet c d key =
      match (if key ∈ obj.skipread then valueRead c d obj.prefixPath key else .ok none) with
      | .error e => (.error e, obj, d)
      | .ok val =>
        match mapGet obj.values key with
        | none => (.ok val, { obj with skipread := obj.skipread.insert key }, d)
        | some value => (.ok (some value), obj, d) := by
  simp [Value.ValueGet, Value.getPrefix, hex]

/-- The method `ValueSet` when `getPrefix` and the write or remove went well. -/
theorem Value.ValueSet_persisted {V : Type} (c : Codec V) (obj obj1 : Value V)
    (d d1 d2 : Disk) (key pfx : String) (value : Option V)
    (hgp : obj.getPrefix d = (.ok pfx, obj1, d1))
    (hp : persist c d1 pfx key value = .ok d2) :
    obj.ValueSet c d key value =
      ((if (fanOut key obj1.notify).2 then .blocked else .returned none),
        { obj1 with
          values := remember obj1.values key value
          notify := (fanOut key obj1.notify).1 }, d2) := by
  simp [Value.ValueSet, hgp, hp]

/-- The loop over `notify` comes to its end when no channel that watches the key
has a full buffer. -/
theorem fanOut_completes (key : String) (notify : List Watcher)
    (h : ∀ w ∈ notify, w.key = key → w.buf < notifyCap) : (fanOut key notify).2 = false := by
  induction notify with
  | nil => rfl
  | cons w ws ih =>
    have ih1 := ih (fun x hx => h x (List.mem_cons_of_mem _ hx))
    unfold fanOut
    by_cases hk : w.key = key
    · have hb := h w (List.mem_cons_self _ _) hk
      simp [hk, hb, ih1]
    · simp [hk, ih1]

/-- The loop over `notify` waits when a channel that watches the key has a full buffer. -/
theorem fanOut_blocks (key : String) (notify : List Watcher)
    (h : ∃ w ∈ notify, w.key = key ∧ notifyCap ≤ w.buf) : (fanOut key notify).2 = true := by
  induction notify with
  | nil => simp at h
  | cons w ws ih =>
    unfold fanOut
    by_cases hk : w.key = key
    · by_cases hb : w.buf < notifyCap
      · simp only [hk, hb, ne_eq, not_true_eq_false, if_false, if_true]
        apply ih
        obtain ⟨x, hx, hxk, hxb⟩ := h
        rcases List.mem_cons.mp hx with rfl | hx
        · omega
        · exact ⟨x, hx, hxk, hxb⟩
      · simp [hk, hb]
    · simp only [ne_eq, hk, not_false_eq_true, if_true]
      apply ih
      obtain ⟨x, hx, hxk, hxb⟩ := h
      rcases List.mem_cons.mp hx with rfl | hx
      · exact absurd hxk hk
      · exact ⟨x, hx, hxk, hxb⟩

/-- When the checks of the prefix pass and `os.Remove` fails with no error other
than not-found, `valueRemove` returns no error. -/
theorem valueRemove_total (d : Disk) (pfx key : String) (h1 : HasSuffix pfx "/" = true)
    (h2 : HasPrefix pfx "/" = true) (hrm : d.removeFails (pfx ++ key) = false) :
    ∃ d2, valueRemove d pfx key = .ok d2 := by
  unfold valueRemove
  unfold Disk.removeFails at hrm
  simp only [h1, h2, Bool.not_true, Bool.false_eq_true, if_false]
  cases hr : Remove d (pfx ++ key) with
  | error e =>
    simp only [hr, Bool.not_eq_false'] at hrm
    exact ⟨d, by simp [hrm]⟩
  | ok d1 => exact ⟨d1, rfl⟩

theorem anyFull_false (notify : List Watcher) (key : String)
    (h : anyFull notify key = false) : ∀ w ∈ notify, w.key = key → w.buf < notifyCap := by
  intro w hw hk
  unfold anyFull at h
  rw [List.any_eq_false] at h
  have := h w hw
  simp [hk] at this
  exact this

theorem plainCodec_faithful : plainCodec.Faithful := by
  apply Codec.faithful_of_base64
  intro v s h
  simp only [plainCodec] at h ⊢
  split at h
  · rename_i hv
    simp only [Except.ok.injEq] at h
    subst h
    refine ⟨by simp [hv], ?_⟩
    intro ch hch
    have := hv.2
    rw [List.all_eq_true] at this
    simpa using this ch hch
  · simp at h

/-- A key that is not marked in `skipread` and not in the map `values` is not
read from the file: `ValueGet` returns `nil` whatever the filesystem holds. -/
theorem Value.ValueGet_unmarked {V : Type} (c : Codec V) (obj : Value V) (d : Disk)
    (key pfx : String) (hpre : (obj.getPrefix d).1 = .ok pfx)
    (hcold : key ∉ obj.skipread) (hmem : mapGet obj.values key = none) :
    (obj.ValueGet c d key).1 = .ok none := by
  have hf := obj.getPrefix_fields d
  rcases hgp : obj.getPrefix d with ⟨r, obj1, d1⟩
  rw [hgp] at hf hpre
  simp only at hf hpre
  subst hpre
  simp [Value.ValueGet, hgp, hf.1, hf.2.1, hcold, hmem]

/-- The case of `ctx.Done()` never ends the goroutine: it goes on in the other
`select`, and the map `notify` is as before. -/
theorem Forwarder.step_done (notify : List Watcher) (t : Forwarder) (h : t.pc ≠ .exited) :
    ∃ t1, t.step notify .done = some (notify, t1) ∧ t1.pc ≠ .exited ∧
      t1.notifyCh = t.notifyCh ∧ t1.sent = t.sent := by
  unfold Forwarder.step
  cases hpc : t.pc with
  | recvSelect => exact ⟨_, rfl, by simp, rfl, rfl⟩
  | sendSelect => exact ⟨_, rfl, by simp, rfl, rfl⟩
  | exited => exact absurd hpc h

/-! ## Lemmas on `path.Clean` -/

theorem splitSlash_ne_nil (l : List Char) : splitSlash l ≠ [] := by
  cases l with
  | nil => simp [splitSlash]
  | cons c cs =>
    unfold splitSlash
    split
    · simp
    · split <;> simp

theorem splitSlash_append (a b : List Char) :
    splitSlash (a ++ '/' :: b) = splitSlash a ++ splitSlash b := by
  induction a with
  | nil => simp [splitSlash]
  | cons c cs ih =>
    by_cases hc : c = '/'
    · simp [splitSlash, hc, ih]
    · simp only [List.cons_append, splitSlash, hc, if_false, List.append_eq]
      rw [ih]
      cases hs : splitSlash cs with
      | nil => exact absurd hs (splitSlash_ne_nil cs)
      | cons x xs => simp

theorem splitSlash_of_no_slash (a : List Char) (h : '/' ∉ a) : splitSlash a = [a] := by
  induction a with
  | nil => rfl
  | cons c cs ih =>
    have hc : c ≠ '/' := fun hc => h (by simp [hc])
    have hcs : '/' ∉ cs := fun hm => h (List.mem_cons_of_mem _ hm)
    simp [splitSlash, hc, ih hcs]

theorem no_slash_of_mem_splitSlash (l : List Char) : ∀ x ∈ splitSlash l, '/' ∉ x := by
  induction l with
  | nil => simp [splitSlash]
  | cons c cs ih =>
    intro x hx
    by_cases hc : c = '/'
    · simp only [splitSlash, hc, if_true, List.mem_cons] at hx
      rcases hx with rfl | hx
      · simp
      · exact ih x hx
    · simp only [splitSlash, hc, if_false] at hx
      cases hs : splitSlash cs with
      | nil => exact absurd hs (splitSlash_ne_nil cs)
      | cons y ys =>
        rw [hs] at hx ih
        simp only [List.mem_cons] at hx
        rcases hx with rfl | hx
        · intro hm
          rcases List.mem_cons.mp hm with h1 | h1
          · exact hc h1.symm
          · exact ih y (List.mem_cons_self _ _) h1
        · exact ih x (List.mem_cons_of_mem _ hx)

theorem splitSlash_joinSlash (es : List (List Char)) (hne : es ≠ [])
    (h : ∀ e ∈ es, '/' ∉ e) : splitSlash (joinSlash es) = es := by
  induction es with
  | nil => exact absurd rfl hne
  | cons e t ih =>
    cases t with
    | nil => exact splitSlash_of_no_slash e (h e (List.mem_cons_self _ _))
    | cons e2 t2 =>
      simp only [joinSlash]
      rw [splitSlash_append, splitSlash_of_no_slash e (h e (List.mem_cons_self _ _)),
        ih (by simp) (fun x hx => h x (List.mem_cons_of_mem _ hx))]
      rfl

theorem joinSlash_append (es1 es2 : List (List Char)) (h1 : es1 ≠ []) (h2 : es2 ≠ []) :
    joinSlash (es1 ++ es2) = joinSlash es1 ++ '/' :: joinSlash es2 := by
  induction es1 with
  | nil => exact absurd rfl h1
  | cons e t ih =>
    cases t with
    | nil =>
      cases es2 with
      | nil => exact absurd rfl h2
      | cons x xs => simp [joinSlash]
    | cons e2 t2 =>
      have hrec := ih (by simp)
      rw [List.cons_append] at hrec
      show e ++ '/' :: joinSlash (e2 :: (t2 ++ es2)) =
        (e ++ '/' :: joinSlash (e2 :: t2)) ++ '/' :: joinSlash es2
      rw [hrec]
      simp

theorem dotdot_ne_nil : dotdot ≠ [] := by decide

theorem dotdot_ne_dot : dotdot ≠ ['.'] := by decide

theorem cleanStep_dotdot_nil (rooted : Bool) :
    cleanStep rooted [] dotdot = if rooted then [] else [dotdot] := by
  unfold cleanStep
  rw [if_neg dotdot_ne_nil, if_neg dotdot_ne_dot, if_pos rfl]

theorem cleanStep_dotdot_push (rooted : Bool) (rest : List (List Char)) :
    cleanStep rooted (dotdot :: rest) dotdot = dotdot :: dotdot :: rest := by
  unfold cleanStep
  rw [if_neg dotdot_ne_nil, if_neg dotdot_ne_dot, if_pos rfl]
  simp only [if_true]

theorem cleanStep_dotdot_pop (rooted : Bool) (top : List Char) (rest : List (List Char))
    (h : top ≠ dotdot) : cleanStep rooted (top :: rest) dotdot = rest := by
  unfold cleanStep
  rw [if_neg dotdot_ne_nil, if_neg dotdot_ne_dot, if_pos rfl]
  simp only [if_neg h]

theorem cleanStep_elem (rooted : Bool) (out : List (List Char)) (e : List Char)
    (h1 : e ≠ []) (h2 : e ≠ ['.']) (h3 : e ≠ dotdot) : cleanStep rooted out e = e :: out := by
  unfold cleanStep
  rw [if_neg h1, if_neg h2, if_neg h3]

theorem cleanStep_good (rooted : Bool) (out : List (List Char)) (e : List Char)
    (hout : GoodStack rooted out) (he : '/' ∉ e) : GoodStack rooted (cleanStep rooted out e) := by
  by_cases h1 : e = []
  · simpa [cleanStep, h1] using hout
  by_cases h2 : e = ['.']
  · simpa [cleanStep, h2] using hout
  by_cases h3 : e = dotdot
  · subst h3
    cases out with
    | nil =>
      cases rooted
      · rw [cleanStep_dotdot_nil]
        exact ⟨he, cleanStep_dotdot_nil false, trivial⟩
      · rw [cleanStep_dotdot_nil]
        trivial
    | cons top rest =>
      by_cases ht : top = dotdot
      · subst ht
        rw [cleanStep_dotdot_push]
        exact ⟨he, cleanStep_dotdot_push rooted rest, hout⟩
      · rw [cleanStep_dotdot_pop rooted top rest ht]
        exact hout.2.2
  · rw [cleanStep_elem rooted out e h1 h2 h3]
    exact ⟨he, cleanStep_elem rooted out e h1 h2 h3, hout⟩

theorem foldl_cleanStep_good (rooted : Bool) (cs : List (List Char)) :
    ∀ out, GoodStack rooted out → (∀ c ∈ cs, '/' ∉ c) →
      GoodStack rooted (cs.foldl (cleanStep rooted) out) := by
  induction cs with
  | nil => intro out h _; exact h
  | cons c t ih =>
    intro out h hc
    exact ih _ (cleanStep_good rooted out c h (hc c (List.mem_cons_self _ _)))
      (fun x hx => hc x (List.mem_cons_of_mem _ hx))

theorem cleanElems_good (rooted : Bool) (path : List Char) :
    GoodStack rooted (cleanElems rooted path) :=
  foldl_cleanStep_good rooted _ [] trivial (no_slash_of_mem_splitSlash path)

/-- The elements that were kept are proper ones: not empty, not `.`, no slash. -/
theorem GoodStack.elems (rooted : Bool) (out : List (List Char)) (h : GoodStack rooted out) :
    ∀ e ∈ out, e ≠ [] ∧ e ≠ ['.'] ∧ '/' ∉ e := by
  induction out with
  | nil => simp
  | cons a t ih =>
    intro e he
    rcases List.mem_cons.mp he with rfl | he
    · obtain ⟨hs, hk, _⟩ := h
      refine ⟨?_, ?_, hs⟩
      · intro h0
        simp [cleanStep, h0] at hk
      · intro h0
        simp [cleanStep, h0] at hk
    · exact ih h.2.2 e he

/-- Reading the elements that were written again writes them again. -/
theorem foldl_cleanStep_reverse (rooted : Bool) (out : List (List Char))
    (h : GoodStack rooted out) : out.reverse.foldl (cleanStep rooted) [] = out := by
  induction out with
  | nil => rfl
  | cons e t ih =>
    rw [List.reverse_cons, List.foldl_append, ih h.2.2]
    exact h.2.1

/-- In a path that is not rooted the element `..` at the front stays there. -/
theorem foldl_cleanStep_dotdot (cs : List (List Char)) :
    ∀ out, dotdot ∈ out → dotdot ∈ cs.foldl (cleanStep false) out := by
  induction cs with
  | nil => intro out h; exact h
  | cons c t ih =>
    intro out h
    apply ih
    by_cases h1 : c = []
    · simpa [cleanStep, h1] using h
    by_cases h2 : c = ['.']
    · simpa [cleanStep, h2] using h
    by_cases h3 : c = dotdot
    · subst h3
      cases out with
      | nil => simp at h
      | cons top rest =>
        by_cases ht : top = dotdot
        · subst ht
          rw [cleanStep_dotdot_push]
          exact List.mem_cons_self _ _
        · have hr : dotdot ∈ rest := by
            rcases List.mem_cons.mp h with h0 | h0
            · exact absurd h0.symm ht
            · exact h0
          rw [cleanStep_dotdot_pop false top rest ht]
          exact hr
    · rw [cleanStep_elem false out c h1 h2 h3]
      exact List.mem_cons_of_mem _ h

/-- The elements of a relative path that does not lead upwards are written on
top of the elements that are there, whether the path is rooted or not. -/
theorem foldl_cleanStep_onto (rooted : Bool) (base : List (List Char))
    (cs : List (List Char)) :
    ∀ out, dotdot ∉ out → dotdot ∉ cs.foldl (cleanStep false) out →
      cs.foldl (cleanStep rooted) (out ++ base) = cs.foldl (cleanStep false) out ++ base := by
  induction cs with
  | nil => intro out _ _; rfl
  | cons c t ih =>
    intro out hout hfin
    simp only [List.foldl_cons] at hfin ⊢
    by_cases h1 : c = []
    · simp only [cleanStep, h1, if_true] at hfin ⊢
      exact ih out hout hfin
    by_cases h2 : c = ['.']
    · simp only [cleanStep, h2] at hfin ⊢
      simp only [List.cons_ne_nil, if_false, if_true] at hfin ⊢
      exact ih out hout hfin
    by_cases h3 : c = dotdot
    · subst h3
      cases out with
      | nil =>
        exfalso
        apply hfin
        apply foldl_cleanStep_dotdot
        rw [cleanStep_dotdot_nil]
        simp
      | cons x rest =>
        have hx : x ≠ dotdot := fun hx => hout (by simp [hx])
        have hrest : dotdot ∉ rest := fun hm => hout (List.mem_cons_of_mem _ hm)
        have e1 : cleanStep false (x :: rest) dotdot = rest :=
          cleanStep_dotdot_pop false x rest hx
        have e2 : cleanStep rooted (x :: rest ++ base) dotdot = rest ++ base :=
          cleanStep_dotdot_pop rooted x (rest ++ base) hx
        rw [e1] at hfin
        rw [e1, e2]
        exact ih rest hrest hfin
    · have e1 : cleanStep false out c = c :: out := cleanStep_elem false out c h1 h2 h3
      have e2 : cleanStep rooted (out ++ base) c = c :: out ++ base :=
        cleanStep_elem rooted (out ++ base) c h1 h2 h3
      rw [e1] at hfin
      rw [e1, e2]
      have hc : dotdot ∉ c :: out := by
        intro hm
        rcases List.mem_cons.mp hm with h0 | h0
        · exact h3 h0.symm
        · exact hout h0
      exact ih (c :: out) hc hfin

theorem joinSlash_ne_nil (es : List (List Char)) (hne : es ≠ [])
    (h : ∀ e ∈ es, e ≠ []) : joinSlash es ≠ [] := by
  cases es with
  | nil => exact absurd rfl hne
  | cons e t =>
    cases t with
    | nil => simpa [joinSlash] using h e (List.mem_cons_self _ _)
    | cons e2 t2 => simp [joinSlash]

theorem joinSlash_ne_dot (es : List (List Char)) (h : ∀ e ∈ es, e ≠ ['.']) :
    joinSlash es ≠ ['.'] := by
  cases es with
  | nil => simp [joinSlash]
  | cons e t =>
    cases t with
    | nil => simpa [joinSlash] using h e (List.mem_cons_self _ _)
    | cons e2 t2 =>
      intro heq
      have hmem : '/' ∈ joinSlash (e :: e2 :: t2) := by simp [joinSlash]
      rw [heq] at hmem
      simp at hmem

theorem isRooted_joinSlash (es : List (List Char)) (rest : List Char) (hne : es ≠ [])
    (h : ∀ e ∈ es, e ≠ [] ∧ '/' ∉ e) : isRooted (joinSlash es ++ rest) = false := by
  cases es with
  | nil => exact absurd rfl hne
  | cons e t =>
    obtain ⟨he, hs⟩ := h e (List.mem_cons_self _ _)
    cases e with
    | nil => exact absurd rfl he
    | cons c cs =>
      have hc : c ≠ '/' := fun hc => hs (by simp [hc])
      cases t with
      | nil => simp [joinSlash, isRooted, hc]
      | cons e2 t2 => simp [joinSlash, isRooted, hc]

theorem isRooted_renderPath (rooted : Bool) (out : List (List Char)) (rest : List Char)
    (hne : out ≠ []) (h : GoodStack rooted out) :
    isRooted (renderPath rooted out ++ rest) = rooted := by
  cases rooted with
  | true => simp [renderPath, isRooted]
  | false =>
    simp only [renderPath, Bool.false_eq_true, if_false, List.nil_append]
    apply isRooted_joinSlash _ _ (by simpa using hne)
    intro e he
    have := GoodStack.elems false out h e (List.mem_reverse.mp he)
    exact ⟨this.1, this.2.2⟩

theorem renderPath_ne_nil (rooted : Bool) (out : List (List Char)) (hne : out ≠ [])
    (h : GoodStack rooted out) : renderPath rooted out ≠ [] := by
  have hj : joinSlash out.reverse ≠ [] := by
    apply joinSlash_ne_nil _ (by simpa using hne)
    intro e he
    exact (GoodStack.elems rooted out h e (List.mem_reverse.mp he)).1
  cases rooted <;> simp [renderPath, hj]

/-- The elements of a path name that `path.Clean` wrote, read again. -/
theorem splitSlash_renderPath_foldl (rooted : Bool) (out : List (List Char)) (hne : out ≠ [])
    (h : GoodStack rooted out) :
    (splitSlash (renderPath rooted out)).foldl (cleanStep rooted) [] = out := by
  have hsp : splitSlash (joinSlash out.reverse) = out.reverse := by
    apply splitSlash_joinSlash _ (by simpa using hne)
    intro e he
    exact (GoodStack.elems rooted out h e (List.mem_reverse.mp he)).2.2
  cases rooted with
  | true =>
    have : renderPath true out = '/' :: joinSlash out.reverse := by simp [renderPath]
    rw [this]
    simp only [splitSlash, if_true, List.foldl_cons, hsp]
    have h0 : cleanStep true [] [] = [] := by simp [cleanStep]
    rw [h0]
    exact foldl_cleanStep_reverse true out h
  | false =>
    have : renderPath false out = joinSlash out.reverse := by simp [renderPath]
    rw [this, hsp]
    exact foldl_cleanStep_reverse false out h

/-- The heart of `path.Join` in `VarDir`: a relative path name that does not lead
upwards, joined to a clean path name, is that path name followed by the cleaned
relative one. -/
theorem cleanChars_under (rooted : Bool) (out : List (List Char)) (reldir : List Char)
    (hne : out ≠ []) (h : GoodStack rooted out) (hrel : isRooted reldir = false)
    (hnonempty : reldir ≠ []) (hclimb : dotdot ∉ cleanElems false reldir) :
    cleanChars (renderPath rooted out ++ '/' :: '/' :: reldir) =
      if cleanChars reldir = ['.'] then renderPath rooted out
      else renderPath rooted out ++ '/' :: cleanChars reldir := by
  have hF := cleanElems_good false reldir
  -- the elements of the joined path
  have hroot := isRooted_renderPath rooted out ('/' :: '/' :: reldir) hne h
  have helems : cleanElems rooted (renderPath rooted out ++ '/' :: '/' :: reldir) =
      cleanElems false reldir ++ out := by
    unfold cleanElems
    rw [splitSlash_append, List.foldl_append, splitSlash_renderPath_foldl rooted out hne h]
    have hsl : splitSlash ('/' :: reldir) = [] :: splitSlash reldir := by simp [splitSlash]
    rw [hsl, List.foldl_cons]
    have h0 : cleanStep rooted out [] = out := by simp [cleanStep]
    rw [h0]
    have := foldl_cleanStep_onto rooted out (splitSlash reldir) [] (by simp) hclimb
    simpa using this
  -- the cleaned relative path
  have hrelc : cleanChars reldir =
      if cleanElems false reldir = [] then ['.'] else joinSlash (cleanElems false reldir).reverse := by
    unfold cleanChars
    rw [if_neg hnonempty, hrel]
    by_cases hE : cleanElems false reldir = []
    · simp [hE, renderPath, joinSlash]
    · have := renderPath_ne_nil false _ hE hF
      simp only [this, if_false, hE]
      simp [renderPath]
  have hgoodAll : GoodStack rooted (cleanElems false reldir ++ out) := by
    rw [← helems]
    exact cleanElems_good rooted _
  have hne2 : cleanElems false reldir ++ out ≠ [] := by simp [hne]
  have hlhs : cleanChars (renderPath rooted out ++ '/' :: '/' :: reldir) =
      renderPath rooted (cleanElems false reldir ++ out) := by
    unfold cleanChars
    rw [if_neg (by simp), hroot, helems]
    simp only [renderPath_ne_nil rooted _ hne2 hgoodAll, if_false]
  rw [hlhs]
  by_cases hE : cleanElems false reldir = []
  · have hd : cleanChars reldir = ['.'] := by rw [hrelc, if_pos hE]
    rw [if_pos hd, hE, List.nil_append]
  · have hd : cleanChars reldir ≠ ['.'] := by
      rw [hrelc, if_neg hE]
      apply joinSlash_ne_dot
      intro e he
      exact (GoodStack.elems false _ hF e (List.mem_reverse.mp he)).2.1
    rw [if_neg hd, hrelc, if_neg hE]
    unfold renderPath
    rw [List.reverse_append, joinSlash_append _ _ (by simpa using hne) (by simpa using hE)]
    simp

theorem data_ne_nil_of_ne_empty (a : String) (h : a ≠ "") : a.data ≠ [] := by
  intro hd
  apply h
  exact String.ext hd

theorem joinBuf_pair (a b : String) (ha : a ≠ "") :
    joinBuf [] [a, b] = a.data ++ '/' :: b.data := by
  have hd := data_ne_nil_of_ne_empty a ha
  simp [joinBuf, ha, hd]

theorem Join_pair (a b : String) (ha : a ≠ "") :
    Join [a, b] = String.mk (cleanChars (a.data ++ '/' :: b.data)) := by
  have hd := data_ne_nil_of_ne_empty a ha
  have hlen : ([a, b].map String.length).sum ≠ 0 := by
    have : 0 < a.data.length := List.length_pos.mpr hd
    simp only [List.map_cons, List.map_nil, List.sum_cons, List.sum_nil, String.length]
    omega
  unfold Join
  rw [if_neg hlen, joinBuf_pair a b ha]
  rfl

/-- The directory of an API below the prefix, `path.Join(Prefix, name)`: a clean
path name with `name` as its last element. -/
theorem Join_name (P name : String) (hname : name.data ≠ []) (hdot : name.data ≠ ['.'])
    (hdd : name.data ≠ dotdot) (hsl : '/' ∉ name.data) :
    ∃ rooted out, out ≠ [] ∧ GoodStack rooted out ∧
      (Join [P, name]).data = renderPath rooted out := by
  have hne : name ≠ "" := fun h => hname (by rw [h])
  by_cases hP : P = ""
  · subst hP
    have hj : Join ["", name] = String.mk (cleanChars name.data) := by
      have hlen : (["", name].map String.length).sum ≠ 0 := by
        have : 0 < name.data.length := List.length_pos.mpr hname
        simp only [List.map_cons, List.map_nil, List.sum_cons, List.sum_nil, String.length]
        omega
      unfold Join
      rw [if_neg hlen]
      simp [joinBuf, hne, Clean]
    have hel : cleanElems (isRooted name.data) name.data = [name.data] := by
      unfold cleanElems
      rw [splitSlash_of_no_slash _ hsl]
      exact cleanStep_elem _ [] _ hname hdot hdd
    have hgood := cleanElems_good (isRooted name.data) name.data
    refine ⟨isRooted name.data, [name.data], by simp, hel ▸ hgood, ?_⟩
    rw [hj]
    show cleanChars name.data = _
    unfold cleanChars
    rw [if_neg hname, hel]
    simp only [renderPath_ne_nil _ [name.data] (by simp) (hel ▸ hgood), if_false]
  · rw [Join_pair P name hP]
    have hd := data_ne_nil_of_ne_empty P hP
    have hjn : P.data ++ '/' :: name.data ≠ [] := by simp
    obtain ⟨rest, hel⟩ : ∃ rest, cleanElems (isRooted (P.data ++ '/' :: name.data))
        (P.data ++ '/' :: name.data) = name.data :: rest := by
      unfold cleanElems
      rw [splitSlash_append, splitSlash_of_no_slash _ hsl, List.foldl_append]
      exact ⟨_, cleanStep_elem _ _ _ hname hdot hdd⟩
    have hgood := cleanElems_good (isRooted (P.data ++ '/' :: name.data))
      (P.data ++ '/' :: name.data)
    rw [hel] at hgood
    refine ⟨_, name.data :: rest, by simp, hgood, ?_⟩
    show cleanChars (P.data ++ '/' :: name.data) = _
    unfold cleanChars
    rw [if_neg hjn, hel]
    simp only [renderPath_ne_nil _ (name.data :: rest) (by simp) hgood, if_false]

theorem isRooted_of_HasPrefix (reldir : String) (h : HasPrefix reldir "/" = false) :
    isRooted reldir.data = false := by
  unfold HasPrefix at h
  have hs : "/".data = ['/'] := rfl
  rw [hs] at h
  cases hd : reldir.data with
  | nil => rfl
  | cons c cs =>
    rw [hd] at h
    simp only [List.isPrefixOf, Bool.and_true] at h
    simp only [isRooted]
    by_cases hc : c = '/'
    · simp [hc] at h
    · simp [hc]

theorem data_ne_nil_of_HasSuffix (reldir : String) (h : HasSuffix reldir "/" = true) :
    reldir.data ≠ [] := by
  intro hd
  unfold HasSuffix at h
  rw [hd] at h
  have hs : "/".data = ['/'] := rfl
  rw [hs] at h
  simp [List.isSuffixOf] at h

/-- What `VarDir` computes for a relative directory name that does not lead
upwards: the prefix followed by the cleaned name and a slash, or the prefix
itself when the name cleans to `.`. -/
theorem Join_under (P reldir : String) (hrel : HasPrefix reldir "/" = false)
    (hdir : HasSuffix reldir "/" = true) (hclimb : climbs reldir = false) :
    Join [Join [P, "vardir"] ++ "/", reldir] ++ "/" =
      if Clean reldir = "." then Join [P, "vardir"] ++ "/"
      else Join [P, "vardir"] ++ "/" ++ Clean reldir ++ "/" := by
  obtain ⟨rooted, out, hne, hgood, hdata⟩ :=
    Join_name P "vardir" (by decide) (by decide) (by decide) (by decide)
  have hs : "/".data = ['/'] := rfl
  have hpne : Join [P, "vardir"] ++ "/" ≠ "" := by
    intro h
    have := congrArg String.data h
    rw [String.data_append, hs] at this
    simp at this
  have hcl : dotdot ∉ cleanElems false reldir.data := by
    unfold climbs at hclimb
    simpa using hclimb
  have hmain := cleanChars_under rooted out reldir.data hne hgood
    (isRooted_of_HasPrefix reldir hrel) (data_ne_nil_of_HasSuffix reldir hdir) hcl
  have hdot : (Clean reldir = ".") ↔ cleanChars reldir.data = ['.'] := by
    unfold Clean
    constructor
    · intro h
      exact congrArg String.data h
    · intro h
      rw [h]
  apply String.ext
  rw [Join_pair _ reldir hpne, String.data_append, String.data_append, hdata, hs]
  have hre : (renderPath rooted out ++ ['/']) ++ '/' :: reldir.data =
      renderPath rooted out ++ '/' :: '/' :: reldir.data := by simp
  simp only [hre, hmain]
  by_cases hd : cleanChars reldir.data = ['.']
  · rw [if_pos hd, if_pos (hdot.mpr hd), String.data_append, hdata, hs]
  · rw [if_neg hd, if_neg (fun h => hd (hdot.mp h))]
    simp only [String.data_append, hdata, hs, Clean]
    simp

/-- What `os.MkdirAll` leaves behind when it returns no error: the directory. -/
theorem MkdirAll_ok (d d2 : Disk) (p : String) (h : MkdirAll d p = .ok d2) :
    d2.stat p = some .dir := by
  unfold MkdirAll at h
  cases hst : d.stat p with
  | none =>
    simp [hst] at h
    rw [← h]
    exact Disk.stat_put_self d p .dir
  | some e =>
    cases e with
    | file content => simp [hst] at h
    | dir =>
      simp [hst] at h
      rw [← h]
      exact hst
    | fault m => simp [hst] at h

/-- The errors of `os.MkdirAll` are errors of package `os`. -/
theorem MkdirAll_error (d : Disk) (p : String) (e : Error) (h : MkdirAll d p = .error e) :
    ∃ m, e = .os m := by
  unfold MkdirAll at h
  cases hst : d.stat p with
  | none => simp [hst] at h
  | some x =>
    cases x with
    | file content => simp [hst] at h; exact ⟨_, h.symm⟩
    | dir => simp [hst] at h
    | fault m => simp [hst] at h; exact ⟨_, h.symm⟩

/-- The directory that `VarDir` computes for a relative name that does not lead
upwards begins with the prefix. -/
theorem Join_under_inside (P reldir : String) (hrel : HasPrefix reldir "/" = false)
    (hdir : HasSuffix reldir "/" = true) (hclimb : climbs reldir = false) :
    HasPrefix (Join [Join [P, "vardir"] ++ "/", reldir] ++ "/") (Join [P, "vardir"] ++ "/") =
      true := by
  rw [Join_under P reldir hrel hdir hclimb]
  unfold HasPrefix
  split
  · simp
  · simp [String.data_append]

theorem chanRecv_chans (notify : List Watcher) (ch : Nat) :
    (chanRecv notify ch).map (fun w => w.ch) = notify.map (fun w => w.ch) := by
  induction notify with
  | nil => rfl
  | cons w ws ih =>
    simp only [chanRecv, List.map_cons, List.map_map] at ih ⊢
    rw [ih]
    by_cases h : w.ch = ch <;> simp [h]

/-- However often the goroutine sees the cancellation, receives tokens and sends
tokens, it does not leave its loop, and the channels in `notify` are the same:
the deferred `delete` does not run. -/
theorem Forwarder.run_stays (es : List Event) :
    ∀ (notify n : List Watcher) (t t1 : Forwarder), (∀ e ∈ es, e ≠ .closed) →
      t.pc ≠ .exited → t.run notify es = some (n, t1) →
      t1.pc ≠ .exited ∧ n.map (fun w => w.ch) = notify.map (fun w => w.ch) := by
  induction es with
  | nil =>
    intro notify n t t1 _ hpc hrun
    simp only [Forwarder.run, Option.some.injEq, Prod.mk.injEq] at hrun
    obtain ⟨rfl, rfl⟩ := hrun
    exact ⟨hpc, rfl⟩
  | cons e rest ih =>
    intro notify n t t1 hes hpc hrun
    have he : e ≠ .closed := hes e (List.mem_cons_self _ _)
    have hstep : ∀ n2 t2, t.step notify e = some (n2, t2) →
        t2.pc ≠ .exited ∧ n2.map (fun w => w.ch) = notify.map (fun w => w.ch) := by
      intro n2 t2 hs
      unfold Forwarder.step at hs
      cases hp : t.pc <;> cases e <;> simp only [hp] at hs
      · split at hs
        · simp only [Option.some.injEq, Prod.mk.injEq] at hs
          obtain ⟨rfl, rfl⟩ := hs
          exact ⟨by simp, chanRecv_chans notify _⟩
        · simp at hs
      · exact absurd rfl he
      · simp at hs
      · simp only [Option.some.injEq, Prod.mk.injEq] at hs
        obtain ⟨rfl, rfl⟩ := hs
        exact ⟨by simp, rfl⟩
      · simp at hs
      · exact absurd rfl he
      · simp only [Option.some.injEq, Prod.mk.injEq] at hs
        obtain ⟨rfl, rfl⟩ := hs
        exact ⟨by simp, rfl⟩
      · simp only [Option.some.injEq, Prod.mk.injEq] at hs
        obtain ⟨rfl, rfl⟩ := hs
        exact ⟨by simp, rfl⟩
      · simp at hs
      · exact absurd rfl he
      · simp at hs
      · simp at hs
    simp only [Forwarder.run] at hrun
    cases hs : t.step notify e with
    | none => simp [hs] at hrun
    | some r =>
      obtain ⟨n2, t2⟩ := r
      simp only [hs] at hrun
      obtain ⟨hpc2, hch2⟩ := hstep n2 t2 hs
      obtain ⟨h3, h4⟩ := ih n2 n t2 t1 (fun x hx => hes x (List.mem_cons_of_mem _ hx)) hpc2 hrun
      exact ⟨h3, h4.trans hch2⟩

/-- The name of the channel that `ValueWatch` makes is above every name in `notify`. -/
theorem freshChan_gt (notify : List Watcher) : ∀ w ∈ notify, w.ch < freshChan notify := by
  have key : ∀ (l : List Nat) (a : Nat), a ≤ l.foldl max a ∧ ∀ x ∈ l, x ≤ l.foldl max a := by
    intro l
    induction l with
    | nil => intro a; simp
    | cons b t ih =>
      intro a
      obtain ⟨h1, h2⟩ := ih (max a b)
      refine ⟨le_trans (le_max_left a b) h1, ?_⟩
      intro x hx
      rcases List.mem_cons.mp hx with rfl | hx
      · exact le_trans (le_max_right a x) h1
      · exact h2 x hx
  intro w hw
  unfold freshChan
  have := (key (notify.map (fun w => w.ch)) 0).2 w.ch (List.mem_map_of_mem _ hw)
  omega

theorem chanLen_append_fresh (notify : List Watcher) (w : Watcher)
    (h : ∀ x ∈ notify, x.ch ≠ w.ch) : chanLen (notify ++ [w]) w.ch = w.buf := by
  induction notify with
  | nil => simp [chanLen]
  | cons a t ih =>
    have ha : a.ch ≠ w.ch := h a (List.mem_cons_self _ _)
    simp only [List.cons_append, chanLen, ha, if_false]
    exact ih (fun x hx => h x (List.mem_cons_of_mem _ hx))

/-! ## The claims -/

/-- C1 (the code departs from the claim).  A first store over `/var/lib/mgmt`
sets `k` to `hello` and leaves the file `value/k`, which `valueRead` decodes to
`hello`.  On a store made afresh over the same prefix the first `ValueGet` of `k`
does not read the file: it returns `nil` and no error. -/
theorem cold_get_misses_file :
    coldDisk.stat "/var/lib/mgmt/value/k" = some (.file "hello\n") ∧
    valueRead plainCodec coldDisk "/var/lib/mgmt/value/" "k" = .ok (some "hello") ∧
    ((Value.Init String "/var/lib/mgmt").ValueGet plainCodec coldDisk "k").1 = .ok none := by
  decide

/-- C2: when `ValueSet` of a key and a value other than `nil` returns no error
and the codec decodes what it encoded, the `ValueGet` of the key that follows on
the same store returns that value and no error. -/
theorem set_then_get {V : Type} (c : Codec V) (hc : c.Faithful) (obj : Value V) (d : Disk)
    (k : String) (v : V) (hset : (obj.ValueSet c d k (some v)).1 = .returned none) :
    ((obj.ValueSet c d k (some v)).2.1.ValueGet c (obj.ValueSet c d k (some v)).2.2 k).1 =
      .ok (some v) := by
  have hf := obj.getPrefix_fields d
  rcases hgp : obj.getPrefix d with ⟨r, obj1, d1⟩
  cases r with
  | error e => simp [Value.ValueSet, hgp] at hset
  | ok pfx =>
    have hok := obj.getPrefix_ok d pfx (by rw [hgp])
    rw [hgp] at hf hok
    dsimp only at hf hok
    cases hp : persist c d1 pfx k (some v) with
    | error e => simp [Value.ValueSet, hgp, hp] at hset
    | ok d2 =>
      rw [Value.ValueSet_persisted c obj obj1 d d1 d2 k pfx (some v) hgp hp]
      dsimp only
      obtain ⟨h1, h2, s, henc, hd2⟩ := valueWrite_ok c d1 d2 pfx k v hp
      rw [Value.ValueGet_provisioned c _ d2 k (by exact hok.2)]
      have hrd := valueRead_written c hc d1 pfx k s v h1 h2 henc
      rw [← hd2] at hrd
      simp only [hf.2.2.2, ← hok.1, hrd, remember]
      by_cases hk : k ∈ obj1.skipread <;> simp [hk, mapGet_mapSet_self]

/-- The witness of C2: the codec of plain strings, a store made afresh, the
key `k` and the value `hello`. -/
theorem set_then_get_witness :
    plainCodec.Faithful ∧
    ((Value.Init String "/var/lib/mgmt").ValueSet plainCodec [] "k" (some "hello")).1 =
      .returned none ∧
    (((Value.Init String "/var/lib/mgmt").ValueSet plainCodec [] "k" (some "hello")).2.1.ValueGet
      plainCodec
      ((Value.Init String "/var/lib/mgmt").ValueSet plainCodec [] "k" (some "hello")).2.2
      "k").1 = .ok (some "hello") :=
  ⟨plainCodec_faithful, by decide,
    set_then_get plainCodec plainCodec_faithful (Value.Init String "/var/lib/mgmt") [] "k"
      "hello" (by decide)⟩

/-- C3 as the claim states it fails: on a store whose prefix is relative the
guard of `valueRemove` turns `ValueSet` of `nil` down, and on a path with an I/O
fault `ValueSet` of `nil` returns the error of `os.Remove`. -/
theorem delete_can_fail :
    ((Value.Init String "state").ValueSet plainCodec [] "k" none).1 =
      .returned (some (.validation "prefix is not absolute")) ∧
    ((Value.Init String "/var/lib/mgmt").ValueSet plainCodec
      [("/var/lib/mgmt/value/k", .fault "permission denied")] "k" none).1 =
      .returned (some (.os "permission denied")) := by
  decide

/-- C3, amended: on a store whose prefix is an absolute directory name, when
`getPrefix` returns no error, `os.Remove` of the path of the key fails with no
error other than not-found, and no channel that watches the key has a full
buffer, `ValueSet` of `nil` returns no error, whether the file exists or not;
after it the file does not exist, the key is not in the map `values`, and
`ValueGet` returns `nil` and no error. -/
theorem delete_removes_key {V : Type} (c : Codec V) (obj : Value V) (d : Disk) (k : String)
    (hdir : HasSuffix obj.prefixPath "/" = true)
    (habs : HasPrefix obj.prefixPath "/" = true)
    (hpre : (obj.getPrefix d).1 = .ok obj.prefixPath)
    (hrm : (obj.getPrefix d).2.2.removeFails (obj.prefixPath ++ k) = false)
    (hbuf : anyFull obj.notify k = false) :
    (obj.ValueSet c d k none).1 = .returned none ∧
    (obj.ValueSet c d k none).2.2.stat (obj.prefixPath ++ k) = none ∧
    mapGet (obj.ValueSet c d k none).2.1.values k = none ∧
    ((obj.ValueSet c d k none).2.1.ValueGet c (obj.ValueSet c d k none).2.2 k).1 =
      .ok none := by
  have hf := obj.getPrefix_fields d
  have hok := obj.getPrefix_ok d _ hpre
  rcases hgp : obj.getPrefix d with ⟨r, obj1, d1⟩
  rw [hgp] at hf hok hpre hrm
  dsimp only at hf hok hpre hrm
  subst hpre
  obtain ⟨d2, hrem⟩ := valueRemove_total d1 obj.prefixPath k hdir habs hrm
  have hp : persist c d1 obj.prefixPath k none = .ok d2 := hrem
  obtain ⟨_, _, hst⟩ := valueRemove_ok d1 d2 obj.prefixPath k hrem
  rw [Value.ValueSet_persisted c obj obj1 d d1 d2 k obj.prefixPath none hgp hp]
  dsimp only
  have hfan : (fanOut k obj1.notify).2 = false := by
    rw [hf.2.2.1]
    exact fanOut_completes k obj.notify (anyFull_false obj.notify k hbuf)
  refine ⟨by simp [hfan], hst, ?_, ?_⟩
  · simp [remember, mapGet_mapDelete_self]
  · rw [Value.ValueGet_provisioned c _ d2 k (by exact hok.2)]
    have hrd : valueRead c d2 obj.prefixPath k = .ok none :=
      valueRead_missing c d2 obj.prefixPath k hdir habs hst
    simp only [hf.2.2.2, hrd, remember, mapGet_mapDelete_self]
    by_cases hk : k ∈ obj1.skipread <;> simp [hk]

/-- The witness of C3, amended.  First the store `warmCached` on `warmDisk`: the
key `k` is marked in `skipread`, the map `values` holds `new` for it and the file
holds `new`; after `ValueSet` of `nil` the file and the binding are gone.  Then
a store made afresh on an empty filesystem, where the file does not exist. -/
theorem delete_removes_key_witness :
    (warmDisk.stat "/var/lib/mgmt/value/k" = some (.file "new\n") ∧
      mapGet warmCached.values "k" = some "new" ∧ "k" ∈ warmCached.skipread ∧
      warmCached.prefixPath = "/var/lib/mgmt/value/") ∧
    ((warmCached.ValueSet plainCodec warmDisk "k" none).1 = .returned none ∧
      (warmCached.ValueSet plainCodec warmDisk "k" none).2.2.stat
        (warmCached.prefixPath ++ "k") = none ∧
      mapGet (warmCached.ValueSet plainCodec warmDisk "k" none).2.1.values "k" = none ∧
      ((warmCached.ValueSet plainCodec warmDisk "k" none).2.1.ValueGet plainCodec
        (warmCached.ValueSet plainCodec warmDisk "k" none).2.2 "k").1 = .ok none) ∧
    (((Value.Init String "/var/lib/mgmt").ValueSet plainCodec [] "k" none).1 =
        .returned none ∧
      ((Value.Init String "/var/lib/mgmt").ValueSet plainCodec [] "k" none).2.2.stat
        ((Value.Init String "/var/lib/mgmt").prefixPath ++ "k") = none ∧
      mapGet ((Value.Init String "/var/lib/mgmt").ValueSet plainCodec [] "k" none).2.1.values
        "k" = none ∧
      (((Value.Init String "/var/lib/mgmt").ValueSet plainCodec [] "k" none).2.1.ValueGet
        plainCodec ((Value.Init String "/var/lib/mgmt").ValueSet plainCodec [] "k" none).2.2
        "k").1 = .ok none) :=
  ⟨by decide,
    delete_removes_key plainCodec warmCached warmDisk "k"
      (by decide) (by decide) (by decide) (by decide) (by decide),
    delete_removes_key plainCodec (Value.Init String "/var/lib/mgmt") [] "k"
      (by decide) (by decide) (by decide) (by decide) (by decide)⟩

/-- The directories and the files that `os.Remove` turns down.  After the key
`a` was set, `ValueSet` of `nil` for the empty key, whose path is the directory
of the values, returns `directory not empty`; so it does for a key whose path is
a directory that holds a file; and for the key `k/`, when `k` is a regular file,
it returns `not a directory`.  In each case nothing is removed. -/
theorem delete_of_directory_fails :
    (((Value.Init String "/var/lib/mgmt").ValueSet plainCodec [] "a" (some "x")).2.1.ValueSet
      plainCodec ((Value.Init String "/var/lib/mgmt").ValueSet plainCodec [] "a" (some "x")).2.2
      "" none).1 = .returned (some (.os "directory not empty")) ∧
    ((Value.Init String "/var/lib/mgmt").ValueSet plainCodec
      [("/var/lib/mgmt/value/sub", .dir), ("/var/lib/mgmt/value/sub/f", .file "x\n")]
      "sub" none).1 = .returned (some (.os "directory not empty")) ∧
    ((Value.Init String "/var/lib/mgmt").ValueSet plainCodec coldDisk "k/" none).1 =
      .returned (some (.os "not a directory")) ∧
    ((Value.Init String "/var/lib/mgmt").ValueSet plainCodec coldDisk "k/" none).2.2.stat
      "/var/lib/mgmt/value/k" = some (.file "hello\n") ∧
    ((Value.Init String "/var/lib/mgmt").ValueSet plainCodec
      [("/var/lib/mgmt/value/sub", .dir)] "sub" none).1 = .returned none := by
  decide

/-- C4: when the part of `ValueSet` on the disk fails, that is `getPrefix`
returns an error, or the check of the prefix, the codec, `os.WriteFile` or
`os.Remove` does, `ValueSet` returns that error, and the maps `values`,
`skipread` and `notify`, the buffers of the channels with them, are as before. -/
theorem set_failure_keeps_memory {V : Type} (c : Codec V) (obj : Value V) (d : Disk)
    (k : String) (value : Option V) (e : Error)
    (hfail : (obj.getPrefix d).1 = .error e ∨
      ((obj.getPrefix d).1 = .ok obj.prefixPath ∧
        persist c (obj.getPrefix d).2.2 obj.prefixPath k value = .error e)) :
    (obj.ValueSet c d k value).1 = .returned (some e) ∧
    (obj.ValueSet c d k value).2.1.values = obj.values ∧
    (obj.ValueSet c d k value).2.1.skipread = obj.skipread ∧
    (obj.ValueSet c d k value).2.1.notify = obj.notify := by
  have hf := obj.getPrefix_fields d
  rcases hgp : obj.getPrefix d with ⟨r, obj1, d1⟩
  rw [hgp] at hf hfail
  dsimp only at hf hfail
  rcases hfail with h | ⟨h1, h2⟩
  · subst h
    simp [Value.ValueSet, hgp, hf]
  · subst h1
    simp [Value.ValueSet, hgp, h2, hf]

/-- The witness of C4: the store with a subscription to `k`, and a filesystem
on which the file of `k` cannot be written. -/
theorem set_failure_keeps_memory_witness :
    ((watchedStore.getPrefix [("/var/lib/mgmt/value/k", .fault "read-only file system")]).1 =
        .error (.os "read-only file system") ∨
      ((watchedStore.getPrefix [("/var/lib/mgmt/value/k", .fault "read-only file system")]).1 =
          .ok watchedStore.prefixPath ∧
        persist plainCodec
          (watchedStore.getPrefix [("/var/lib/mgmt/value/k", .fault "read-only file system")]).2.2
          watchedStore.prefixPath "k" (some "hello") = .error (.os "read-only file system"))) ∧
    (watchedStore.ValueSet plainCodec [("/var/lib/mgmt/value/k", .fault "read-only file system")]
      "k" (some "hello")).1 = .returned (some (.os "read-only file system")) ∧
    (watchedStore.ValueSet plainCodec [("/var/lib/mgmt/value/k", .fault "read-only file system")]
      "k" (some "hello")).2.1.values = watchedStore.values ∧
    (watchedStore.ValueSet plainCodec [("/var/lib/mgmt/value/k", .fault "read-only file system")]
      "k" (some "hello")).2.1.skipread = watchedStore.skipread ∧
    (watchedStore.ValueSet plainCodec [("/var/lib/mgmt/value/k", .fault "read-only file system")]
      "k" (some "hello")).2.1.notify = watchedStore.notify :=
  ⟨by decide,
    set_failure_keeps_memory plainCodec watchedStore
      [("/var/lib/mgmt/value/k", .fault "read-only file system")] "k" (some "hello")
      (.os "read-only file system") (by decide)⟩

/-- C5 (the code departs from the claim).  Right after `ValueWatch` of `k` the
buffer of the channel holds the startup token, it is full: the write of
`ValueSet` of `k` succeeds, as `persist` shows, and then `ValueSet` does not
return, the send on the full channel waits.  The same with two calls in a row
after the goroutine has taken the startup token: the first `ValueSet` fills the
buffer and returns, the second one waits. -/
theorem set_waits_on_full_buffer :
    watchedStore.notify = [{ ch := 1, key := "k", buf := 1 }] ∧
    (persist plainCodec (watchedStore.getPrefix []).2.2 watchedStore.prefixPath "k"
      (some "hello")).isOk = true ∧
    (watchedStore.ValueSet plainCodec [] "k" (some "hello")).1 = .blocked ∧
    drainedStore.notify = [{ ch := 1, key := "k", buf := 0 }] ∧
    (drainedStore.ValueSet plainCodec [] "k" (some "one")).1 = .returned none ∧
    (drainedStore.ValueSet plainCodec [] "k" (some "one")).2.1.notify =
      [{ ch := 1, key := "k", buf := 1 }] ∧
    ((drainedStore.ValueSet plainCodec [] "k" (some "one")).2.1.ValueSet plainCodec
      (drainedStore.ValueSet plainCodec [] "k" (some "one")).2.2 "k" (some "two")).1 =
      .blocked := by
  decide

/-- C6: `ValueWatch` adds one binding to the map `notify`, of a channel that was
not in the map, to the key; the buffer of the channel has the capacity one and
holds one token; the maps `values` and `skipread` and the other bindings are as
before; and the goroutine can receive that token and hand one token to the
subscriber, with no `ValueSet` in between. -/
theorem watch_registers_with_startup_token {V : Type} (obj : Value V) (key : String) :
    (∃ w : Watcher, (obj.ValueWatch key).2.notify = obj.notify ++ [w] ∧
      w.ch = (obj.ValueWatch key).1.notifyCh ∧ w.key = key ∧ w.buf = 1 ∧
      w.buf = notifyCap ∧ ∀ x ∈ obj.notify, x.ch ≠ w.ch) ∧
    (obj.ValueWatch key).2.values = obj.values ∧
    (obj.ValueWatch key).2.skipread = obj.skipread ∧
    (obj.ValueWatch key).1.pc = .recvSelect ∧ (obj.ValueWatch key).1.sent = 0 ∧
    ∃ n t, (obj.ValueWatch key).1.run (obj.ValueWatch key).2.notify [.signal, .taken] =
      some (n, t) ∧ t.sent = 1 := by
  have hfresh : ∀ x ∈ obj.notify, x.ch ≠ freshChan obj.notify := by
    intro x hx
    have := freshChan_gt obj.notify x hx
    omega
  refine ⟨⟨⟨freshChan obj.notify, key, 0 + 1⟩, rfl, rfl, rfl, rfl, rfl, hfresh⟩, rfl, rfl, rfl,
    rfl, ?_⟩
  have hlen : chanLen (obj.notify ++ [⟨freshChan obj.notify, key, 0 + 1⟩])
      (freshChan obj.notify) = 1 :=
    chanLen_append_fresh obj.notify ⟨freshChan obj.notify, key, 0 + 1⟩ hfresh
  refine ⟨chanRecv (obj.notify ++ [⟨freshChan obj.notify, key, 0 + 1⟩]) (freshChan obj.notify),
    ⟨freshChan obj.notify, .recvSelect, 1⟩, ?_, rfl⟩
  simp [Value.ValueWatch, Forwarder.run, Forwarder.step, hlen]

/-- C7 (the code departs from the claim).  The goroutine of a subscription sees
the cancellation in the first `select`: the `break` ends the `select` only, the
goroutine stands in the second `select`, and the channel is still in `notify`.
There the subscriber can take a token, though none was received from
`notifyCh`.  After the cancellation is seen in both waits, twice, and two tokens
are sent, the goroutine waits again and the channel is still in `notify`. -/
theorem cancel_does_not_end_goroutine :
    watchedTask.step watchedStore.notify .done =
      some (watchedStore.notify, { watchedTask with pc := .sendSelect }) ∧
    watchedTask.run watchedStore.notify [.done, .taken] =
      some (watchedStore.notify, { watchedTask with pc := .recvSelect, sent := 1 }) ∧
    watchedTask.run watchedStore.notify [.done, .done, .done, .taken, .done, .taken] =
      some ([{ ch := 1, key := "k", buf := 1 }],
        { notifyCh := 1, pc := .recvSelect, sent := 2 }) := by
  decide

/-- C8 (the code departs from the claim).  The key `k` is marked in `skipread`
and is not in the map `values` of `warmStore`.  `ValueGet` of `k` reads the file
all the same: it returns `nil` when the file is missing, the value in the file
when there is one, and the error of the codec when the file is corrupt.  In
`warmCached` the key is marked and in the map `values`: `ValueGet` returns the
value in the map when the file is missing, and the error of the codec when the
file is corrupt. -/
theorem warm_get_reads_file :
    "k" ∈ warmStore.skipread ∧ mapGet warmStore.values "k" = none ∧
    (warmStore.ValueGet plainCodec [] "k").1 = .ok none ∧
    (warmStore.ValueGet plainCodec coldDisk "k").1 = .ok (some "hello") ∧
    (warmStore.ValueGet plainCodec [("/var/lib/mgmt/value/k", .file "not base64\n")] "k").1 =
      .error (.codec "illegal base64 data") ∧
    "k" ∈ warmCached.skipread ∧ mapGet warmCached.values "k" = some "new" ∧
    (warmCached.ValueGet plainCodec [] "k").1 = .ok (some "new") ∧
    (warmCached.ValueGet plainCodec [("/var/lib/mgmt/value/k", .file "not base64\n")] "k").1 =
      .error (.codec "illegal base64 data") := by
  decide

/-- C9 as the claim states it fails: the name `./` passes the two checks, and
`VarDir` returns the prefix itself, not the prefix followed by the cleaned name
`.` and a slash. -/
theorem VarDir_dot_returns_prefix :
    HasPrefix "./" "/" = false ∧ HasSuffix "./" "/" = true ∧ Clean "./" = "." ∧
    ((VarDirImpl.Init "/var/lib/mgmt").VarDir [] "./").1 = .ok "/var/lib/mgmt/vardir/" ∧
    (VarDirImpl.Init "/var/lib/mgmt").prefixPath ++ Clean "./" ++ "/" =
      "/var/lib/mgmt/vardir/./" ∧
    ((VarDirImpl.Init "/var/lib/mgmt").VarDir [] "./").1 ≠
      .ok ((VarDirImpl.Init "/var/lib/mgmt").prefixPath ++ Clean "./" ++ "/") := by
  decide

/-- C9, amended: `VarDir` returns an error of validation exactly when the name
begins with a slash or does not end with one, and then the object and the
filesystem are untouched.  For every other name that does not lead upwards, when
`getPrefix` and `os.MkdirAll` return no error, `VarDir` returns no error and the
prefix followed by the cleaned name and a slash, or the prefix itself when the
name cleans to `.`; that path is the one it handed to `os.MkdirAll`, and it is a
directory afterwards. -/
theorem VarDir_checks_then_makes (obj : VarDirImpl) (d : Disk) (reldir : String)
    (hinit : obj.prefixPath = Join [obj.initPrefix, "vardir"] ++ "/") :
    ((∃ m, (obj.VarDir d reldir).1 = .error (.validation m)) ↔
      (HasPrefix reldir "/" = true ∨ HasSuffix reldir "/" = false)) ∧
    ((HasPrefix reldir "/" = true ∨ HasSuffix reldir "/" = false) →
      (obj.VarDir d reldir).2 = (obj, d)) ∧
    (HasPrefix reldir "/" = false → HasSuffix reldir "/" = true → climbs reldir = false →
      (obj.getPrefix d).1 = .ok obj.prefixPath →
      (MkdirAll (obj.getPrefix d).2.2 (Join [obj.prefixPath, reldir] ++ "/")).isOk = true →
      (obj.VarDir d reldir).1 =
        .ok (if Clean reldir = "." then obj.prefixPath
          else obj.prefixPath ++ Clean reldir ++ "/") ∧
      (obj.VarDir d reldir).2.2.stat
        (if Clean reldir = "." then obj.prefixPath
          else obj.prefixPath ++ Clean reldir ++ "/") = some .dir) := by
  refine ⟨⟨?_, ?_⟩, ?_, ?_⟩
  · rintro ⟨m, hm⟩
    by_contra hcon
    simp only [not_or, Bool.not_eq_true, Bool.not_eq_false] at hcon
    obtain ⟨h1, h2⟩ := hcon
    unfold VarDirImpl.VarDir at hm
    simp only [h1, h2, Bool.false_eq_true, if_false, Bool.not_true] at hm
    unfold VarDirImpl.getPrefix at hm
    by_cases hex : obj.prefixExists = true
    · simp only [hex, if_true] at hm
      cases hmk : MkdirAll d (Join [obj.prefixPath, reldir] ++ "/") with
      | error e =>
        obtain ⟨x, hx⟩ := MkdirAll_error _ _ e hmk
        simp [hmk, hx] at hm
      | ok d2 => simp [hmk] at hm
    · simp only [hex] at hm
      cases hmk0 : MkdirAll d obj.prefixPath with
      | error e =>
        obtain ⟨x, hx⟩ := MkdirAll_error _ _ e hmk0
        simp [hmk0, hx] at hm
      | ok d1 =>
        simp only [hmk0] at hm
        cases hmk : MkdirAll d1 (Join [obj.prefixPath, reldir] ++ "/") with
        | error e =>
          obtain ⟨x, hx⟩ := MkdirAll_error _ _ e hmk
          simp [hmk, hx] at hm
        | ok d2 => simp [hmk] at hm
  · intro h
    unfold VarDirImpl.VarDir
    rcases h with h | h
    · exact ⟨"path must be relative", by simp [h]⟩
    · by_cases h1 : HasPrefix reldir "/" = true
      · exact ⟨"path must be relative", by simp [h1]⟩
      · exact ⟨"path must be a dir", by simp [h1, h]⟩
  · intro h
    unfold VarDirImpl.VarDir
    rcases h with h | h
    · simp [h]
    · by_cases h1 : HasPrefix reldir "/" = true
      · simp [h1]
      · simp [h1, h]
  · intro h1 h2 hclimb hpre hmk
    have hpath : Join [obj.prefixPath, reldir] ++ "/" =
        if Clean reldir = "." then obj.prefixPath
        else obj.prefixPath ++ Clean reldir ++ "/" := by
      rw [hinit]
      exact Join_under obj.initPrefix reldir h1 h2 hclimb
    rw [← hpath]
    rcases hgp : obj.getPrefix d with ⟨r, obj1, d1⟩
    rw [hgp] at hpre hmk
    dsimp only at hpre hmk
    subst hpre
    cases hmk2 : MkdirAll d1 (Join [obj.prefixPath, reldir] ++ "/") with
    | error e => simp [hmk2, Except.isOk, Except.toBool] at hmk
    | ok d2 =>
      have hv : obj.VarDir d reldir = (.ok (Join [obj.prefixPath, reldir] ++ "/"), obj1, d2) := by
        unfold VarDirImpl.VarDir
        simp [h1, h2, hgp, hmk2]
      rw [hv]
      exact ⟨rfl, MkdirAll_ok d1 d2 _ hmk2⟩

/-- The witness of C9, amended: the API over `/var/lib/mgmt`, an empty
filesystem and the name `a/b/`. -/
theorem VarDir_checks_then_makes_witness :
    (VarDirImpl.Init "/var/lib/mgmt").prefixPath =
      Join [(VarDirImpl.Init "/var/lib/mgmt").initPrefix, "vardir"] ++ "/" ∧
    (HasPrefix "a/b/" "/" = false ∧ HasSuffix "a/b/" "/" = true ∧ climbs "a/b/" = false) ∧
    ((VarDirImpl.Init "/var/lib/mgmt").VarDir [] "a/b/").1 =
      .ok (if Clean "a/b/" = "." then (VarDirImpl.Init "/var/lib/mgmt").prefixPath
        else (VarDirImpl.Init "/var/lib/mgmt").prefixPath ++ Clean "a/b/" ++ "/") ∧
    ((VarDirImpl.Init "/var/lib/mgmt").VarDir [] "a/b/").2.2.stat
      (if Clean "a/b/" = "." then (VarDirImpl.Init "/var/lib/mgmt").prefixPath
        else (VarDirImpl.Init "/var/lib/mgmt").prefixPath ++ Clean "a/b/" ++ "/") =
      some .dir :=
  ⟨rfl, by decide,
    (VarDir_checks_then_makes (VarDirImpl.Init "/var/lib/mgmt") [] "a/b/" rfl).2.2
      (by decide) (by decide) (by decide) (by decide) (by decide)⟩

/-- The names that are turned down, and the directory of the name `a/b/`. -/
theorem VarDir_examples :
    ((VarDirImpl.Init "/var/lib/mgmt").VarDir [] "/abs/").1 =
      .error (.validation "path must be relative") ∧
    ((VarDirImpl.Init "/var/lib/mgmt").VarDir [] "rel").1 =
      .error (.validation "path must be a dir") ∧
    ((VarDirImpl.Init "/var/lib/mgmt").VarDir [] "").1 =
      .error (.validation "path must be a dir") ∧
    ((VarDirImpl.Init "/var/lib/mgmt").VarDir [] "/").1 =
      .error (.validation "path must be relative") ∧
    ((VarDirImpl.Init "/var/lib/mgmt").VarDir [] "a/b/").1 = .ok "/var/lib/mgmt/vardir/a/b/" := by
  decide

/-- C10 (the code departs from the claim).  The name `../../etc/` passes the two
checks of `VarDir`; over the prefix `/var/lib/mgmt` the call returns
`/var/lib/etc/`, which does not begin with the prefix `/var/lib/mgmt/vardir/`,
and makes that directory. -/
theorem VarDir_leaves_prefix :
    HasPrefix "../../etc/" "/" = false ∧ HasSuffix "../../etc/" "/" = true ∧
    (VarDirImpl.Init "/var/lib/mgmt").prefixPath = "/var/lib/mgmt/vardir/" ∧
    ((VarDirImpl.Init "/var/lib/mgmt").VarDir [] "../../etc/").1 = .ok "/var/lib/etc/" ∧
    HasPrefix "/var/lib/etc/" (VarDirImpl.Init "/var/lib/mgmt").prefixPath = false ∧
    ((VarDirImpl.Init "/var/lib/mgmt").VarDir [] "../../etc/").2.2.stat "/var/lib/etc/" =
      some .dir := by
  decide

end Local
